import Mathlib

/-!
Verification of `main.py` of the file-combiner repository.

The development shallowly embeds the program:

* the collision resolver inside `move_file` (lines 11-23 of `main.py`),
  including Python `pathlib` stem/suffix splitting and decimal formatting
  of the probe counter;
* the move itself (`shutil.move`, line 25) over an explicit destination
  directory state whose entries may be regular files or directories;
* the batch scheduler of `main` (lines 58-74) as a small-step machine whose
  actions are the main-thread operations (submit, drain one result, reset a
  batch, print the final message) together with asynchronous worker
  completions;
* the interleaving of the existence check and the actual move of distinct
  worker threads, for the collision race;
* the top-level guard/dry-run behaviour of `main` (lines 48-63).
-/

namespace FileCombiner

/-- Decimal digit character for a digit `0 ≤ d ≤ 9`, as produced by Python
string formatting. -/
def digitChar : Nat → Char
  | 0 => '0'
  | 1 => '1'
  | 2 => '2'
  | 3 => '3'
  | 4 => '4'
  | 5 => '5'
  | 6 => '6'
  | 7 => '7'
  | 8 => '8'
  | _ => '9'

/-- Base-10 digit list of `n`, most significant first; fuel-indexed so that
the kernel can evaluate it (the fuel is always sufficient, see `toDigits`). -/
def toDigitsF : Nat → Nat → List Char
  | 0, _ => []
  | fuel + 1, n =>
    if n < 10 then [digitChar n]
    else toDigitsF fuel (n / 10) ++ [digitChar (n % 10)]

/-- Base-10 digit list of `n`; `n + 1` units of fuel always suffice. -/
def toDigits (n : Nat) : List Char := toDigitsF (n + 1) n

/-- Decimal rendering of a natural number, as produced by Python `f"{i}"`
for a nonnegative `int`. -/
def decimal (n : Nat) : String := ⟨toDigits n⟩

/-- Numeric value of a digit character (inverse of `digitChar` on digits). -/
def digitVal : Char → Nat
  | '0' => 0
  | '1' => 1
  | '2' => 2
  | '3' => 3
  | '4' => 4
  | '5' => 5
  | '6' => 6
  | '7' => 7
  | '8' => 8
  | _ => 9

/-- Value of a digit list, most significant first. -/
def digitsVal (l : List Char) : Nat := l.foldl (fun a c => 10 * a + digitVal c) 0

/-! ### Stem/suffix splitting, mirroring Python `pathlib.PurePath.stem`/`.suffix`

Python computes `i = name.rfind('.')` and splits at `i` exactly when
`0 < i < len(name) - 1`; otherwise the suffix is empty and the stem is the
whole name. -/
/-- Index of the last occurrence of `c` in `l` (Python `str.rfind`), or
`none` when absent. -/
def rfind (l : List Char) (c : Char) : Option Nat :=
  match l with
  | [] => none
  | a :: as =>
    match rfind as c with
    | some k => some (k + 1)
    | none => if a = c then some 0 else none

/-- Split a file name into Python-pathlib `stem` and `suffix`. -/
def splitExt (name : String) : String × String :=
  match rfind name.data '.' with
  | none => (name, "")
  | some i =>
    if 0 < i ∧ i < name.data.length - 1 then (⟨name.data.take i⟩, ⟨name.data.drop i⟩)
    else (name, "")

/-! ### Collision candidates and the probe loop of `move_file` (lines 14-23) -/
/-- The `i`-th collision candidate `f"{stem} ({i}){suffix}"`. -/
def candidate (stem ext : String) (i : Nat) : String :=
  stem ++ " (" ++ decimal i ++ ")" ++ ext

/-- The probe loop of `move_file`: try `candidate i`, `candidate (i+1)`, …
returning the first candidate that does not exist in the destination
directory.  Fuel-indexed; `existing.length + 1` units always suffice. -/
def probeAux (existing : List String) (stem ext : String) : Nat → Nat → String
  | 0, i => candidate stem ext i
  | fuel + 1, i =>
    if candidate stem ext i ∈ existing then probeAux existing stem ext fuel (i + 1)
    else candidate stem ext i

/-- Destination-name resolution of `move_file` (lines 11-23): the unmodified
name if it does not exist, otherwise the first free `"{stem} ({i}){suffix}"`
for i = 1, 2, 3, …  `existing` is the set of names present in the
destination directory (of any kind, file or directory). -/
def resolveDest (existing : List String) (name : String) : String :=
  if name ∈ existing then
    probeAux existing (splitExt name).1 (splitExt name).2 (existing.length + 1) 1
  else name

/-! ### Destination directory state and the move itself -/
/-- Kind of a filesystem entry in the destination directory; `Path.exists`
is true for either kind. -/
inductive EntryKind where
  | file (content : String)
  | dir
deriving DecidableEq

/-- Entries of the (flat) destination directory. -/
abbrev DirEntries := List (String × EntryKind)

def entryNames (d : DirEntries) : List String := d.map Prod.fst

/-- Effect of `shutil.move(str(src), str(dest))` on the destination
directory: a regular file appears at `dest`; an already-existing regular
file at that exact path would be silently overwritten (POSIX rename). -/
def writeEntry (d : DirEntries) (nm : String) (k : EntryKind) : DirEntries :=
  if nm ∈ entryNames d then d.map (fun e => if e.1 = nm then (nm, k) else e)
  else d ++ [(nm, k)]

/-- Function `move_file` of `main.py` (lines 7-26) acting on the destination
directory, with the existence check and the move performed back-to-back
(no interleaving with other workers).  Returns the chosen destination name
and the updated directory. -/
def move_file (d : DirEntries) (srcName content : String) : String × DirEntries :=
  let dest := resolveDest (entryNames d) srcName
  (dest, writeEntry d dest (.file content))

/-- Serial execution of the whole run over the gathered source files (each
item's `move_file` completing before the next starts): every processed file
leaves the source list and lands in the destination directory. -/
def runAll : List (String × String) → DirEntries → List (String × String) × DirEntries
  | [], d => ([], d)
  | f :: fs, d => runAll fs (move_file d f.1 f.2).2

/-! ### Interleaved execution of `move_file` by concurrent workers

`move_file` is not atomic: the existence check (lines 11-23) and the
`shutil.move` (line 25) are separate steps, and the thread pool interleaves
them across workers. -/
/-- A worker thread executing `move_file`: `resolved = none` before the
existence check; `some dst` once the collision resolution ran; `done` once
the `shutil.move` committed. -/
structure RWorker where
  srcName : String
  content : String
  resolved : Option String
  done : Bool
deriving DecidableEq

structure RState where
  dest : DirEntries
  workers : List RWorker
deriving DecidableEq

/-- One scheduling step: worker `w` performs the next atomic action of its
`move_file` -- first the check/resolution, then the move. -/
def rstep (s : RState) (w : Nat) : RState :=
  match s.workers[w]? with
  | none => s
  | some wk =>
    if wk.done then s
    else
      match wk.resolved with
      | none =>
        let wk2 := { wk with resolved := some (resolveDest (entryNames s.dest) wk.srcName) }
        { s with workers := s.workers.set w wk2 }
      | some dst =>
        let wk2 := { wk with done := true }
        { dest := writeEntry s.dest dst (.file wk.content),
          workers := s.workers.set w wk2 }

/-- Run the workers under a given interleaving schedule. -/
def rrun (s : RState) (sched : List Nat) : RState := sched.foldl rstep s

/-! ### Serial same-name runs -/
/-- Name received by the `k`-th file (0-based, traversal order) among files
sharing one base name moved into an initially empty destination. -/
def seqName (nm : String) : Nat → String
  | 0 => nm
  | k + 1 => candidate (splitExt nm).1 (splitExt nm).2 (k + 1)

/-- Destination contents after the first files (with the given contents, all
named `nm`) have been moved, starting at sequence position `k`. -/
def enumNames (nm : String) : Nat → List String → DirEntries
  | _, [] => []
  | k, c :: cs => (seqName nm k, .file c) :: enumNames nm (k + 1) cs

/-! ### Top level of `main` (lines 48-76) -/
/-- Filesystem as seen by `main`: whether the source root exists, the
regular files gathered under it (path and content, traversal order), whether
the destination directory exists, and the destination's entries. -/
structure FState where
  srcExists : Bool
  srcFiles : List (String × String)
  destExists : Bool
  destEntries : DirEntries
deriving DecidableEq

/-- Function `main(source, dest, ..., dry_run)` of `main.py`: the source guard
(lines 49-51), `dest.mkdir(parents=True, exist_ok=True)` (line 52), the
gather and count message (lines 55-56), then either the dry-run report loop
(lines 61-63) or the moves (summarised serially here; the concurrent
scheduling itself is modelled by `SchedState` below), and the final message
(line 76).  Returns the updated filesystem and the printed lines. -/
def mainRun (fs : FState) (srcPath destPath : String) (dryRun : Bool) :
    FState × List String :=
  if fs.srcExists = false then (fs, ["Source path does not exist: " ++ srcPath])
  else
    let found := "Found " ++ decimal fs.srcFiles.length ++ " files to move."
    if dryRun then
      ({ fs with destExists := true },
        [found] ++ fs.srcFiles.map (fun f => "Would move: " ++ f.1 ++ " -> " ++ destPath)
          ++ ["Done moving files."])
    else
      let r := runAll fs.srcFiles fs.destEntries
      ({ fs with destExists := true, srcFiles := r.1, destEntries := r.2 },
        [found, "Done moving files."])

/-! ### The batch scheduler of `main` (lines 58-74)

Small-step machine.  The main thread performs `submit` (line 64, plus the
length check of line 67), `await` (one `fut.result()` of the
`as_completed` loops, lines 68-69 and 73-74), `reset` (line 70) and
`finish` (line 76).  A worker performs `complete k` when the task of file
index `k` reaches a terminal state; `err k = true` means that task raises.
An action whose guard does not hold leaves the state unchanged (the main
thread simply is not at that point of the program). -/
inductive Act where
  | submit
  | complete (k : Nat)
  | await
  | reset
  | finish
deriving DecidableEq

structure SchedState where
  /-- file indices not yet submitted, in traversal order -/
  pending : List Nat
  /-- the `futures` list: indices submitted in the current batch -/
  futures : List Nat
  /-- indices of completed futures of the current batch, in completion
  order (the order in which `as_completed` yields them) -/
  doneOrder : List Nat
  /-- how many results of the current batch `fut.result()` has retrieved -/
  awaitPtr : Nat
  /-- indices of fully drained earlier batches -/
  prevDone : List Nat
  /-- the main thread is blocked in the inner `as_completed` loop -/
  draining : Bool
  /-- an exception escaped `fut.result()`: index of the raising task -/
  aborted : Option Nat
  /-- the final print of line 76 has run -/
  finished : Bool
  /-- lines printed after the scheduling loop -/
  out : List String
deriving DecidableEq

def step (b : Nat) (err : Nat → Bool) (s : SchedState) : Act → SchedState
  | .submit =>
    match s.pending with
    | [] => s
    | i :: rest =>
      if s.draining = false ∧ s.finished = false ∧ s.aborted = none then
        { s with
          pending := rest
          futures := s.futures ++ [i]
          draining := decide (b ≤ s.futures.length + 1) }
      else s
  | .complete k =>
    if k ∈ s.futures ∧ k ∉ s.doneOrder then
      { s with doneOrder := s.doneOrder ++ [k] }
    else s
  | .await =>
    if (s.draining = true ∨ s.pending = []) ∧ s.aborted = none ∧ s.finished = false then
      match s.doneOrder[s.awaitPtr]? with
      | some i =>
        if err i then { s with aborted := some i }
        else { s with awaitPtr := s.awaitPtr + 1 }
      | none => s
    else s
  | .reset =>
    if (s.draining = true ∨ s.pending = []) ∧ s.aborted = none ∧ s.finished = false
        ∧ s.awaitPtr = s.futures.length ∧ s.futures ≠ [] then
      { s with
        futures := []
        doneOrder := []
        awaitPtr := 0
        prevDone := s.prevDone ++ s.doneOrder
        draining := false }
    else s
  | .finish =>
    if s.pending = [] ∧ s.futures = [] ∧ s.aborted = none ∧ s.finished = false then
      { s with finished := true, out := s.out ++ ["Done moving files."] }
    else s

def initSched (n : Nat) : SchedState :=
  { pending := List.range n, futures := [], doneOrder := [], awaitPtr := 0,
    prevDone := [], draining := false, aborted := none, finished := false, out := [] }

/-- The scheduler run on `n` gathered files with batch size `b`, under a
given interleaving of main-thread and worker actions. -/
def runSched (b : Nat) (err : Nat → Bool) (n : Nat) (acts : List Act) : SchedState :=
  acts.foldl (step b err) (initSched n)

/-- Number of items in flight: submitted in the current batch and not yet
completed (all items of earlier batches completed before their batch was
left). -/
def inFlight (s : SchedState) : Nat :=
  (s.futures.filter (fun k => decide (k ∉ s.doneOrder))).length

/-- Inductive invariant of the scheduler for batch size `b ≥ 1` on `n`
gathered files. -/
structure SchedInv (b n : Nat) (err : Nat → Bool) (s : SchedState) : Prop where
  hfut : s.futures = List.range' s.prevDone.length s.futures.length
  hpend : s.pending = List.range' (s.prevDone.length + s.futures.length)
      (n - (s.prevDone.length + s.futures.length))
  hperm : s.prevDone.Perm (List.range s.prevDone.length)
  hdsub : s.doneOrder ⊆ s.futures
  hdnd : s.doneOrder.Nodup
  hptr : s.awaitPtr ≤ s.doneOrder.length
  hndr : s.draining = false → s.futures.length < b
  hdr : s.draining = true → s.futures.length = b
  hdiv : s.futures ≠ [] ∨ s.pending ≠ [] → b ∣ s.prevDone.length
  hfin : s.finished = true → s.aborted = none ∧ s.pending = [] ∧ s.futures = []
  hout : s.out = if s.finished then ["Done moving files."] else []
  habort : ∀ i, s.aborted = some i → err i = true ∧ s.doneOrder[s.awaitPtr]? = some i
  hawait : ∀ q, q < s.awaitPtr → ∃ j, s.doneOrder[q]? = some j ∧ err j = false

/-! ## Theorems -/

theorem digitVal_digitChar : ∀ d, d < 10 → digitVal (digitChar d) = d := by decide

theorem digitsVal_append_singleton (l : List Char) (c : Char) :
    digitsVal (l ++ [c]) = 10 * digitsVal l + digitVal c := by
  simp [digitsVal, List.foldl_append]

theorem digitsVal_toDigitsF : ∀ fuel n, n < fuel → digitsVal (toDigitsF fuel n) = n := by
  intro fuel
  induction fuel with
  | zero => intro n h; omega
  | succ fuel ih =>
    intro n h
    rw [toDigitsF]
    split
    · rename_i h10
      simp [digitsVal, digitVal_digitChar n h10]
    · rename_i h10
      have hd : n / 10 < fuel := by omega
      rw [digitsVal_append_singleton, ih (n / 10) hd,
        digitVal_digitChar (n % 10) (Nat.mod_lt _ (by omega))]
      omega

theorem digitsVal_toDigits (n : Nat) : digitsVal (toDigits n) = n :=
  digitsVal_toDigitsF (n + 1) n (by omega)

theorem decimal_injective : ∀ m n : Nat, decimal m = decimal n → m = n := by
  intro m n h
  have hdata : toDigits m = toDigits n := congrArg String.data h
  calc m = digitsVal (toDigits m) := (digitsVal_toDigits m).symm
    _ = digitsVal (toDigits n) := by rw [hdata]
    _ = n := digitsVal_toDigits n

theorem toDigitsF_ne_nil : ∀ fuel n, 0 < fuel → toDigitsF fuel n ≠ [] := by
  intro fuel n h
  match fuel with
  | fuel + 1 =>
    rw [toDigitsF]
    split <;> simp

theorem decimal_length_pos (n : Nat) : 0 < (decimal n).length := by
  have h := toDigitsF_ne_nil (n + 1) n (by omega)
  have : (decimal n).data = toDigits n := rfl
  rw [String.length, this]
  cases hd : toDigits n with
  | nil => exact absurd hd h
  | cons a l => simp

theorem data_append (s t : String) : (s ++ t).data = s.data ++ t.data := by
  cases s; cases t; rfl

theorem string_eq_of_data {s t : String} (h : s.data = t.data) : s = t := by
  cases s; cases t; exact congrArg String.mk h

theorem string_append_empty (s : String) : s ++ "" = s := by
  apply string_eq_of_data
  rw [data_append]
  simp [String.data]

theorem string_length_append (s t : String) : (s ++ t).length = s.length + t.length := by
  show (s ++ t).data.length = s.data.length + t.data.length
  rw [data_append, List.length_append]

theorem splitExt_append (name : String) :
    (splitExt name).1 ++ (splitExt name).2 = name := by
  rw [splitExt]
  split
  · exact string_append_empty name
  · split
    · rename_i x i heq hcond
      apply string_eq_of_data
      rw [data_append]
      show name.data.take i ++ name.data.drop i = name.data
      exact List.take_append_drop i name.data
    · exact string_append_empty name

theorem candidate_data (stem ext : String) (i : Nat) :
    (candidate stem ext i).data
      = stem.data ++ (" (").data ++ (decimal i).data ++ (")").data ++ ext.data := by
  simp [candidate, data_append]

theorem candidate_injective (stem ext : String) {i j : Nat}
    (h : candidate stem ext i = candidate stem ext j) : i = j := by
  have hd := congrArg String.data h
  rw [candidate_data, candidate_data] at hd
  rw [List.append_assoc, List.append_assoc, List.append_assoc,
    List.append_assoc, List.append_assoc, List.append_assoc] at hd
  have h1 := List.append_cancel_left hd
  have h2 := List.append_cancel_left h1
  have h3 : (decimal i).data = (decimal j).data := List.append_cancel_right h2
  exact decimal_injective i j (string_eq_of_data h3)

theorem candidate_length (stem ext : String) (i : Nat) :
    (candidate stem ext i).length
      = stem.length + ext.length + 3 + (decimal i).length := by
  have hd := candidate_data stem ext i
  have hl : (candidate stem ext i).length = (candidate stem ext i).data.length := rfl
  rw [hl, hd]
  have e3 : stem.length = stem.data.length := rfl
  have e4 : ext.length = ext.data.length := rfl
  have e5 : (decimal i).length = (decimal i).data.length := rfl
  simp only [List.length_append, List.length_cons, List.length_nil]
  omega

theorem candidate_ne_of_split (name : String) (i : Nat) :
    candidate (splitExt name).1 (splitExt name).2 i ≠ name := by
  intro h
  have hlen := congrArg String.length h
  rw [candidate_length] at hlen
  have hlen2 : (splitExt name).1.length + (splitExt name).2.length = name.length := by
    rw [← string_length_append, splitExt_append]
  have := decimal_length_pos i
  omega

theorem probeAux_eq (existing : List String) (stem ext : String) :
    ∀ (m fuel i : Nat), m < fuel →
      (∀ j, j < m → candidate stem ext (i + j) ∈ existing) →
      candidate stem ext (i + m) ∉ existing →
      probeAux existing stem ext fuel i = candidate stem ext (i + m) := by
  intro m
  induction m with
  | zero =>
    intro fuel i hf hall hfree
    match fuel with
    | fuel + 1 =>
      rw [probeAux]
      simp only [Nat.add_zero] at hfree
      simp [hfree]
  | succ m ih =>
    intro fuel i hf hall hfree
    match fuel with
    | fuel + 1 =>
      rw [probeAux]
      have h0 : candidate stem ext i ∈ existing := by
        have := hall 0 (by omega)
        simpa using this
      simp only [h0, if_pos]
      have heq : i + 1 + m = i + (m + 1) := by omega
      rw [ih fuel (i + 1) (by omega)
        (fun j hj => by
          have := hall (j + 1) (by omega)
          have hshift : i + (j + 1) = i + 1 + j := by omega
          rwa [hshift] at this)
        (by rwa [heq])]
      rw [heq]

/-- Pigeonhole: among the first `existing.length + 1` candidates at least one
is free, because distinct indices give distinct candidate names. -/
theorem exists_free_candidate (existing : List String) (stem ext : String) :
    ∃ m, m ≤ existing.length ∧ candidate stem ext (1 + m) ∉ existing := by
  by_contra hcon
  push_neg at hcon
  set l := (List.range (existing.length + 1)).map (fun m => candidate stem ext (1 + m)) with hl
  have hsub : l ⊆ existing := by
    intro x hx
    rw [hl, List.mem_map] at hx
    obtain ⟨m, hm, rfl⟩ := hx
    exact hcon m (by simpa using Nat.lt_succ_iff.mp (List.mem_range.mp hm))
  have hnd : l.Nodup := by
    refine List.Nodup.map ?_ (List.nodup_range _)
    intro a b hab
    have := candidate_injective stem ext hab
    omega
  have hle : l.length ≤ existing.length := (List.subperm_of_subset hnd hsub).length_le
  rw [hl] at hle
  simp at hle

/-- Core correctness of the resolver on a colliding name: it returns the
candidate of the least free index `i ≥ 1`, and that index is at most
`existing.length + 1`. -/
theorem probe_resolves (existing : List String) (stem ext : String) :
    ∃ i, 1 ≤ i ∧ i ≤ existing.length + 1 ∧
      candidate stem ext i ∉ existing ∧
      (∀ j, 1 ≤ j → j < i → candidate stem ext j ∈ existing) ∧
      probeAux existing stem ext (existing.length + 1) 1 = candidate stem ext i := by
  have hex : ∃ m, candidate stem ext (1 + m) ∉ existing := by
    obtain ⟨m, _, hm⟩ := exists_free_candidate existing stem ext
    exact ⟨m, hm⟩
  classical
  let m0 := Nat.find hex
  have hm0 : candidate stem ext (1 + m0) ∉ existing := Nat.find_spec hex
  have hmin : ∀ j, j < m0 → candidate stem ext (1 + j) ∈ existing := by
    intro j hj
    have := Nat.find_min hex hj
    simpa using this
  have hle : m0 ≤ existing.length := by
    obtain ⟨m, hm, hfree⟩ := exists_free_candidate existing stem ext
    exact le_trans (Nat.find_min' hex hfree) hm
  refine ⟨1 + m0, by omega, by omega, hm0, ?_, ?_⟩
  · intro j h1 hj
    have := hmin (j - 1) (by omega)
    have heq : 1 + (j - 1) = j := by omega
    rwa [heq] at this
  · exact probeAux_eq existing stem ext m0 (existing.length + 1) 1 (by omega)
      (fun j hj => hmin j hj) hm0

theorem rfind_eq_none {l : List Char} {c : Char} (h : ∀ a ∈ l, a ≠ c) :
    rfind l c = none := by
  induction l with
  | nil => rfl
  | cons a as ih =>
    rw [rfind, ih (fun x hx => h x (List.mem_cons_of_mem a hx))]
    simp [h a (List.mem_cons_self a as)]

theorem seqName_succ (nm : String) (k : Nat) :
    seqName nm (k + 1) = candidate (splitExt nm).1 (splitExt nm).2 (k + 1) := rfl

theorem seqName_injective (nm : String) : ∀ {j k : Nat},
    seqName nm j = seqName nm k → j = k := by
  intro j k h
  match j, k with
  | 0, 0 => rfl
  | 0, k + 1 => exact absurd h.symm (candidate_ne_of_split nm (k + 1))
  | j + 1, 0 => exact absurd h (candidate_ne_of_split nm (j + 1))
  | j + 1, k + 1 =>
    have := candidate_injective (splitExt nm).1 (splitExt nm).2 (i := j + 1) (j := k + 1) h
    omega

theorem enumNames_names (nm : String) : ∀ (cs : List String) (k : Nat),
    entryNames (enumNames nm k cs) = (List.range' k cs.length).map (seqName nm) := by
  intro cs
  induction cs with
  | nil => intro k; rfl
  | cons c cs ih =>
    intro k
    rw [enumNames, List.length_cons, List.range'_succ, List.map_cons]
    show seqName nm k :: entryNames (enumNames nm (k + 1) cs) = _
    rw [ih (k + 1)]

theorem enumNames_concat (nm : String) : ∀ (cs : List String) (k : Nat) (c : String),
    enumNames nm k (cs ++ [c]) = enumNames nm k cs ++ [(seqName nm (k + cs.length), .file c)] := by
  intro cs
  induction cs with
  | nil => intro k c; simp [enumNames]
  | cons a as ih =>
    intro k c
    rw [List.cons_append, enumNames, enumNames, ih (k + 1) c]
    have hx : k + 1 + as.length = k + (a :: as).length := by
      rw [List.length_cons]; omega
    rw [hx, List.cons_append]

theorem seqName_fresh (nm : String) (done : List String) :
    seqName nm done.length ∉ entryNames (enumNames nm 0 done) := by
  intro hmem
  rw [enumNames_names] at hmem
  obtain ⟨j, hj, hjeq⟩ := List.mem_map.mp hmem
  have hjlt : j < done.length := by
    have := List.mem_range'_1.mp hj
    omega
  have := seqName_injective nm hjeq
  omega

theorem move_file_same_name (nm : String) (done : List String) (c : String) :
    move_file (enumNames nm 0 done) nm c
      = (seqName nm done.length,
         enumNames nm 0 done ++ [(seqName nm done.length, .file c)]) := by
  have hfresh := seqName_fresh nm done
  have hdest : resolveDest (entryNames (enumNames nm 0 done)) nm = seqName nm done.length := by
    match hd : done with
    | [] => rfl
    | d :: ds =>
      have hmem : nm ∈ entryNames (enumNames nm 0 (d :: ds)) := by
        rw [enumNames_names]
        exact List.mem_map.mpr ⟨0, List.mem_range'_1.mpr (by simp), rfl⟩
      rw [resolveDest, if_pos hmem]
      have hlen : (entryNames (enumNames nm 0 (d :: ds))).length = ds.length + 1 := by
        rw [enumNames_names, List.length_map, List.length_range']
        rfl
      rw [hlen]
      have hstep := probeAux_eq (entryNames (enumNames nm 0 (d :: ds)))
        (splitExt nm).1 (splitExt nm).2 ds.length (ds.length + 1 + 1) 1
        (by omega)
        (fun j hj => by
          have h1j : 1 + j = j + 1 := by omega
          rw [h1j]
          rw [enumNames_names]
          exact List.mem_map.mpr ⟨j + 1,
            List.mem_range'_1.mpr (by simp; omega), rfl⟩)
        (by
          have h1d : 1 + ds.length = ds.length + 1 := by omega
          rw [h1d, ← seqName_succ nm ds.length]
          have hfr := seqName_fresh nm (d :: ds)
          rw [List.length_cons] at hfr
          exact hfr)
      rw [hstep]
      have h1d : 1 + ds.length = ds.length + 1 := by omega
      rw [h1d, List.length_cons]
      exact (seqName_succ nm ds.length).symm
  simp only [move_file]
  rw [hdest, writeEntry, if_neg hfresh]

theorem runAll_same_name (nm : String) :
    ∀ (rest done : List String),
      runAll (rest.map fun c => (nm, c)) (enumNames nm 0 done)
        = ([], enumNames nm 0 (done ++ rest)) := by
  intro rest
  induction rest with
  | nil => intro done; simp [runAll]
  | cons c rest ih =>
    intro done
    rw [List.map_cons, runAll]
    have hm := move_file_same_name nm done c
    show runAll (rest.map fun c => (nm, c)) (move_file (enumNames nm 0 done) nm c).2 = _
    rw [hm]
    have hcat : enumNames nm 0 done ++ [(seqName nm done.length, EntryKind.file c)]
        = enumNames nm 0 (done ++ [c]) := by
      rw [enumNames_concat]
      have : (0 : Nat) + done.length = done.length := by omega
      rw [this]
    rw [hcat, ih (done ++ [c])]
    have : (done ++ [c]) ++ rest = done ++ (c :: rest) := by
      rw [List.append_assoc]; rfl
    rw [this]

theorem schedInv_init (b n : Nat) (err : Nat → Bool) (hb : 1 ≤ b) :
    SchedInv b n err (initSched n) := by
  refine ⟨?_, ?_, ?_, ?_, ?_, ?_, ?_, ?_, ?_, ?_, ?_, ?_, ?_⟩ <;>
    simp [initSched, List.range_eq_range']
  omega

theorem schedInv_step (b n : Nat) (err : Nat → Bool) (hb : 1 ≤ b) (s : SchedState)
    (h : SchedInv b n err s) (a : Act) : SchedInv b n err (step b err s a) := by
  obtain ⟨hfut, hpend, hperm, hdsub, hdnd, hptr, hndr, hdr, hdiv, hfin, hout, habort, hawait⟩ := h
  cases a with
  | submit =>
    rw [step]
    split
    · exact ⟨hfut, hpend, hperm, hdsub, hdnd, hptr, hndr, hdr, hdiv, hfin, hout, habort, hawait⟩
    · rename_i i rest hp
      split
      · rename_i hg
        obtain ⟨hgd, hgf, hga⟩ := hg
        have hcons : List.range' (s.prevDone.length + s.futures.length)
            (n - (s.prevDone.length + s.futures.length)) = i :: rest := by
          rw [← hpend, hp]
        rw [List.range'_eq_cons_iff] at hcons
        obtain ⟨hi, hpos, hrest⟩ := hcons
        refine ⟨?_, ?_, ?_, ?_, ?_, ?_, ?_, ?_, ?_, ?_, ?_, ?_, ?_⟩ <;> dsimp only
        · have hlen : (s.futures ++ [i]).length = s.futures.length + 1 := by simp
          rw [hlen, List.range'_1_concat, ← hfut, hi]
        · have hlen : (s.futures ++ [i]).length = s.futures.length + 1 := by simp
          rw [hlen, hrest]
          have e1 : s.prevDone.length + (s.futures.length + 1) = i + 1 := by omega
          have e2 : n - (s.prevDone.length + s.futures.length) - 1
              = n - (s.prevDone.length + (s.futures.length + 1)) := by omega
          rw [← e1, e2]
        · exact hperm
        · exact hdsub.trans (List.subset_append_left _ _)
        · exact hdnd
        · exact hptr
        · intro hdec
          have := of_decide_eq_false hdec
          rw [List.length_append, List.length_cons, List.length_nil]
          omega
        · intro hdec
          have h1 := of_decide_eq_true hdec
          have h2 := hndr hgd
          rw [List.length_append, List.length_cons, List.length_nil]
          omega
        · intro hx
          refine hdiv (Or.inr ?_)
          rw [hp]
          simp
        · intro hf
          rw [hgf] at hf
          exact absurd hf (by simp)
        · rw [hout]
        · intro j hj
          rw [hga] at hj
          exact absurd hj (by simp)
        · exact hawait
      · exact ⟨hfut, hpend, hperm, hdsub, hdnd, hptr, hndr, hdr, hdiv, hfin, hout, habort, hawait⟩
  | complete k =>
    rw [step]
    split
    · rename_i hk
      obtain ⟨hkf, hkd⟩ := hk
      refine ⟨?_, ?_, ?_, ?_, ?_, ?_, ?_, ?_, ?_, ?_, ?_, ?_, ?_⟩ <;> dsimp only
      · exact hfut
      · exact hpend
      · exact hperm
      · intro x hx
        rcases List.mem_append.mp hx with hx | hx
        · exact hdsub hx
        · rw [List.mem_singleton] at hx
          rw [hx]
          exact hkf
      · rw [List.nodup_append]
        refine ⟨hdnd, List.nodup_singleton k, ?_⟩
        intro x hx hk1
        rw [List.mem_singleton] at hk1
        rw [hk1] at hx
        exact hkd hx
      · rw [List.length_append, List.length_cons, List.length_nil]
        omega
      · exact hndr
      · exact hdr
      · exact hdiv
      · exact hfin
      · exact hout
      · intro i hi
        obtain ⟨he, hg⟩ := habort i hi
        refine ⟨he, ?_⟩
        have hlt : s.awaitPtr < s.doneOrder.length := by
          obtain ⟨hl, -⟩ := List.getElem?_eq_some.mp hg
          exact hl
        rw [List.getElem?_append_left hlt]
        exact hg
      · intro q hq
        obtain ⟨j, hg, he⟩ := hawait q hq
        have hlt : q < s.doneOrder.length := by
          obtain ⟨hl, -⟩ := List.getElem?_eq_some.mp hg
          exact hl
        exact ⟨j, by rw [List.getElem?_append_left hlt]; exact hg, he⟩
    · exact ⟨hfut, hpend, hperm, hdsub, hdnd, hptr, hndr, hdr, hdiv, hfin, hout, habort, hawait⟩
  | await =>
    rw [step]
    split
    · rename_i hg
      obtain ⟨hg1, hga, hgf⟩ := hg
      split
      · rename_i i hget
        split
        · rename_i herr
          refine ⟨hfut, hpend, hperm, hdsub, hdnd, hptr, hndr, hdr, hdiv, ?_, hout, ?_, hawait⟩
            <;> dsimp only
          · intro hf
            rw [hgf] at hf
            exact absurd hf (by simp)
          · intro i' hi'
            rw [Option.some_inj] at hi'
            rw [← hi']
            exact ⟨herr, hget⟩
        · rename_i herr
          have hlt : s.awaitPtr < s.doneOrder.length := by
            obtain ⟨hl, -⟩ := List.getElem?_eq_some.mp hget
            exact hl
          refine ⟨hfut, hpend, hperm, hdsub, hdnd, ?_, hndr, hdr, hdiv, hfin, hout, ?_, ?_⟩
            <;> dsimp only
          · omega
          · intro i' hi'
            rw [hga] at hi'
            exact absurd hi' (by simp)
          · intro q hq
            rcases Nat.lt_or_ge q s.awaitPtr with hq' | hq'
            · exact hawait q hq'
            · have hqe : q = s.awaitPtr := by omega
              rw [hqe]
              exact ⟨i, hget, by simpa using herr⟩
      · exact ⟨hfut, hpend, hperm, hdsub, hdnd, hptr, hndr, hdr, hdiv, hfin, hout, habort, hawait⟩
    · exact ⟨hfut, hpend, hperm, hdsub, hdnd, hptr, hndr, hdr, hdiv, hfin, hout, habort, hawait⟩
  | reset =>
    rw [step]
    split
    · rename_i hg
      obtain ⟨hg1, hga, hgf, hgp, hgne⟩ := hg
      have hfnd : s.futures.Nodup := by
        rw [hfut]
        exact List.nodup_range' _ _
      have hsp : List.Subperm s.doneOrder s.futures := List.subperm_of_subset hdnd hdsub
      have hlen1 : s.doneOrder.length ≤ s.futures.length := hsp.length_le
      have hlen2 : s.futures.length ≤ s.doneOrder.length := by omega
      have hpermdf : s.doneOrder.Perm s.futures := hsp.perm_of_length_le hlen2
      have hdlen : s.doneOrder.length = s.futures.length := by omega
      refine ⟨?_, ?_, ?_, ?_, ?_, ?_, ?_, ?_, ?_, ?_, ?_, ?_, ?_⟩ <;> dsimp only
      · simp
      · rw [hpend]
        have e : (s.prevDone ++ s.doneOrder).length + ([] : List Nat).length
            = s.prevDone.length + s.futures.length := by
          rw [List.length_append, List.length_nil, hdlen]
          omega
        rw [e]
      · rw [List.length_append, hdlen]
        have hfp : s.futures.Perm (List.range' s.prevDone.length s.futures.length) := by
          rw [← hfut]
        have heq : List.range s.prevDone.length
            ++ List.range' s.prevDone.length s.futures.length
            = List.range (s.prevDone.length + s.futures.length) := by
          rw [List.range_eq_range', List.range_eq_range']
          have h0 := List.range'_append_1 0 s.prevDone.length s.futures.length
          rw [Nat.zero_add] at h0
          rw [Nat.add_comm s.futures.length s.prevDone.length] at h0
          exact h0
        refine (hperm.append (hpermdf.trans hfp)).trans ?_
        rw [heq]
      · simp
      · exact List.nodup_nil
      · simp
      · intro
        simpa using hb
      · intro hx
        exact absurd hx (by simp)
      · intro hx
        rcases hx with hx | hx
        · exact absurd rfl hx
        · rcases hg1 with hg1 | hg1
          · have hlb := hdr hg1
            have hdivp := hdiv (Or.inr hx)
            rw [List.length_append, hdlen, hlb]
            exact (Nat.dvd_add_right hdivp).mpr (dvd_refl b)
          · exact absurd hg1 hx
      · intro hf
        rw [hgf] at hf
        exact absurd hf (by simp)
      · rw [hout]
      · intro i hi
        rw [hga] at hi
        exact absurd hi (by simp)
      · intro q hq
        exact absurd hq (by omega)
    · exact ⟨hfut, hpend, hperm, hdsub, hdnd, hptr, hndr, hdr, hdiv, hfin, hout, habort, hawait⟩
  | finish =>
    rw [step]
    split
    · rename_i hg
      obtain ⟨hgp, hgfu, hga, hgf⟩ := hg
      refine ⟨hfut, hpend, hperm, hdsub, hdnd, hptr, hndr, hdr, ?_, ?_, ?_, ?_, hawait⟩
        <;> dsimp only
      · intro hx
        rcases hx with hx | hx
        · exact absurd hgfu hx
        · exact absurd hgp hx
      · intro
        exact ⟨hga, hgp, hgfu⟩
      · rw [hout, hgf]
        simp
      · intro i hi
        rw [hga] at hi
        exact absurd hi (by simp)
    · exact ⟨hfut, hpend, hperm, hdsub, hdnd, hptr, hndr, hdr, hdiv, hfin, hout, habort, hawait⟩

theorem schedInv_fold (b n : Nat) (err : Nat → Bool) (hb : 1 ≤ b) :
    ∀ (acts : List Act) (s : SchedState), SchedInv b n err s →
      SchedInv b n err (acts.foldl (step b err) s) := by
  intro acts
  induction acts with
  | nil => intro s hs; exact hs
  | cons a acts ih =>
    intro s hs
    exact ih _ (schedInv_step b n err hb s hs a)

theorem schedInv_run (b n : Nat) (err : Nat → Bool) (acts : List Act) (hb : 1 ≤ b) :
    SchedInv b n err (runSched b err n acts) :=
  schedInv_fold b n err hb acts (initSched n) (schedInv_init b n err hb)

/-- Worker completions stay enabled regardless of `aborted`/`finished`:
folding `complete` steps for a list of distinct uncompleted submitted
indices appends exactly those indices to the completion order. -/
theorem completes_append (b : Nat) (err : Nat → Bool) :
    ∀ (ks : List Nat) (s : SchedState), ks ⊆ s.futures → ks.Nodup →
      (∀ k ∈ ks, k ∉ s.doneOrder) →
      ((ks.map Act.complete).foldl (step b err) s).doneOrder = s.doneOrder ++ ks
      ∧ ((ks.map Act.complete).foldl (step b err) s).futures = s.futures := by
  intro ks
  induction ks with
  | nil => intro s _ _ _; exact ⟨by simp, rfl⟩
  | cons k ks ih =>
    intro s hsub hnd hnotin
    rw [List.map_cons, List.foldl_cons]
    have hk : k ∈ s.futures ∧ k ∉ s.doneOrder :=
      ⟨hsub (List.mem_cons_self k ks), hnotin k (List.mem_cons_self k ks)⟩
    have hstep : step b err s (.complete k) = { s with doneOrder := s.doneOrder ++ [k] } := by
      rw [step, if_pos hk]
    rw [hstep]
    have hknotmem : k ∉ ks := (List.nodup_cons.mp hnd).1
    obtain ⟨hd, hf⟩ := ih ({ s with doneOrder := s.doneOrder ++ [k] })
      (fun x hx => hsub (List.mem_cons_of_mem k hx))
      ((List.nodup_cons.mp hnd).2)
      (fun x hx => by
        dsimp only
        rw [List.mem_append, List.mem_singleton]
        push_neg
        exact ⟨hnotin x (List.mem_cons_of_mem k hx), fun he => hknotmem (he ▸ hx)⟩)
    refine ⟨?_, hf⟩
    rw [hd]
    dsimp only
    rw [List.append_assoc, List.singleton_append]

theorem runSched_append (b : Nat) (err : Nat → Bool) (n : Nat) (acts more : List Act) :
    runSched b err n (acts ++ more) = more.foldl (step b err) (runSched b err n acts) := by
  rw [runSched, runSched, List.foldl_append]

theorem enumNames_length (nm : String) : ∀ (cs : List String) (k : Nat),
    (enumNames nm k cs).length = cs.length := by
  intro cs
  induction cs with
  | nil => intro k; rfl
  | cons c cs ih =>
    intro k
    rw [enumNames, List.length_cons, List.length_cons, ih (k + 1)]

/-! ## The claims -/
/-- C1 counterexample: a dry run with an absent destination directory does
mutate the filesystem - `dest.mkdir(parents=True, exist_ok=True)` (line 52)
runs before the dry-run check of line 61, so the destination directory is
created even though dry-run was requested. -/
theorem C1_counterexample :
    (mainRun ⟨true, [("a.txt", "x")], false, []⟩ "src" "dst" true).1.destExists = true
    ∧ (⟨true, [("a.txt", "x")], false, []⟩ : FState).destExists = false := by
  exact ⟨by decide, by decide⟩

/-- C1 (amended): on a dry run with an existing source, the only filesystem
mutation is creating the destination directory (with parents) when it is
absent; the source tree, the gathered files and the destination entries are
untouched, and with a missing source nothing at all changes. -/
theorem C1_dry_run_effect (fs : FState) (srcPath destPath : String) :
    (mainRun fs srcPath destPath true).1
      = if fs.srcExists = true then { fs with destExists := true } else fs := by
  cases hs : fs.srcExists <;> simp [mainRun, hs]

/-- C2: `move_file`'s collision resolution returns the unmodified name when
no entry with that name exists, and otherwise the candidate
`"{stem} ({i}){suffix}"` for the least `i ≥ 1` whose candidate does not
exist at the time of the check. -/
theorem C2_resolveDest_correct (existing : List String) (name : String) :
    (name ∉ existing → resolveDest existing name = name)
    ∧ (name ∈ existing → ∃ i, 1 ≤ i
        ∧ resolveDest existing name = candidate (splitExt name).1 (splitExt name).2 i
        ∧ candidate (splitExt name).1 (splitExt name).2 i ∉ existing
        ∧ (∀ j, 1 ≤ j → j < i →
            candidate (splitExt name).1 (splitExt name).2 j ∈ existing)) := by
  constructor
  · intro h
    rw [resolveDest, if_neg h]
  · intro h
    obtain ⟨i, h1, h2, hfree, hmin, hres⟩ :=
      probe_resolves existing (splitExt name).1 (splitExt name).2
    exact ⟨i, h1, by rw [resolveDest, if_pos h, hres], hfree, hmin⟩

/-- Witness for C2 at concrete directory states. -/
theorem C2_witness :
    resolveDest ["x.txt"] "a.txt" = "a.txt"
    ∧ (∃ i, 1 ≤ i
        ∧ resolveDest ["a.txt"] "a.txt" = candidate (splitExt "a.txt").1 (splitExt "a.txt").2 i
        ∧ candidate (splitExt "a.txt").1 (splitExt "a.txt").2 i ∉ (["a.txt"] : List String)
        ∧ (∀ j, 1 ≤ j → j < i →
            candidate (splitExt "a.txt").1 (splitExt "a.txt").2 j ∈ (["a.txt"] : List String))) :=
  ⟨(C2_resolveDest_correct ["x.txt"] "a.txt").1 (by decide),
   (C2_resolveDest_correct ["a.txt"] "a.txt").2 (by decide)⟩

/-- C3 counterexample: batch of two items, the first completion raises.  The
batch does complete (both items reach a terminal state, `doneOrder = [0,1]`),
but the outcome of item 1 is never collected: `fut.result()` stopped at the
failure (`awaitPtr = 0`), and the await loop is permanently disabled (a
further `await` is a no-op), refuting "all outcomes of the batch are
collected". -/
theorem C3_counterexample :
    (runSched 2 (fun i => decide (i = 0)) 2
        [.submit, .submit, .complete 0, .await, .complete 1]).aborted = some 0
    ∧ (runSched 2 (fun i => decide (i = 0)) 2
        [.submit, .submit, .complete 0, .await, .complete 1]).doneOrder = [0, 1]
    ∧ (runSched 2 (fun i => decide (i = 0)) 2
        [.submit, .submit, .complete 0, .await, .complete 1]).awaitPtr = 0
    ∧ step 2 (fun i => decide (i = 0))
        (runSched 2 (fun i => decide (i = 0)) 2
          [.submit, .submit, .complete 0, .await, .complete 1]) .await
      = runSched 2 (fun i => decide (i = 0)) 2
          [.submit, .submit, .complete 0, .await, .complete 1] := by
  exact ⟨by decide, by decide, by decide, by decide⟩

/-- C3 (amended): a failing item does not cancel or skip siblings - every
submitted item of the batch can still run to a terminal state (completions
stay enabled and the futures list is untouched) - but outcomes are not all
collected: `fut.result()` retrieves results in completion order only up to
the first failure, whose exception aborts the run; results retrieved before
it were all successes. -/
theorem C3_failure_handling (b n : Nat) (err : Nat → Bool) (acts : List Act) (hb : 1 ≤ b) :
    (∃ more : List Act,
      (runSched b err n (acts ++ more)).futures = (runSched b err n acts).futures
      ∧ ∀ k ∈ (runSched b err n acts).futures,
          k ∈ (runSched b err n (acts ++ more)).doneOrder)
    ∧ (∀ i, (runSched b err n acts).aborted = some i →
        err i = true
        ∧ (runSched b err n acts).doneOrder[(runSched b err n acts).awaitPtr]? = some i
        ∧ ∀ q, q < (runSched b err n acts).awaitPtr →
            ∃ j, (runSched b err n acts).doneOrder[q]? = some j ∧ err j = false) := by
  have inv := schedInv_run b n err acts hb
  have hndf : (runSched b err n acts).futures.Nodup := by
    rw [inv.hfut]
    exact List.nodup_range' _ _
  constructor
  · obtain ⟨hdone, hfutu⟩ := completes_append b err
      ((runSched b err n acts).futures.filter
        (fun k => decide (k ∉ (runSched b err n acts).doneOrder)))
      (runSched b err n acts)
      (List.filter_subset' _)
      (List.Nodup.filter _ hndf)
      (fun k hk => of_decide_eq_true (List.mem_filter.mp hk).2)
    refine ⟨((runSched b err n acts).futures.filter
      (fun k => decide (k ∉ (runSched b err n acts).doneOrder))).map Act.complete, ?_, ?_⟩
    · rw [runSched_append]
      exact hfutu
    · intro k hk
      rw [runSched_append, hdone, List.mem_append]
      by_cases hd : k ∈ (runSched b err n acts).doneOrder
      · exact Or.inl hd
      · exact Or.inr (List.mem_filter.mpr ⟨hk, decide_eq_true hd⟩)
  · intro i hi
    obtain ⟨he, hg⟩ := inv.habort i hi
    exact ⟨he, hg, fun q hq => inv.hawait q hq⟩

/-- Witness for C3 on a concrete aborted run. -/
theorem C3_witness :
    (∃ more : List Act,
      (runSched 2 (fun i => decide (i = 0)) 2
          ([.submit, .submit, .complete 0, .await] ++ more)).futures
        = (runSched 2 (fun i => decide (i = 0)) 2 [.submit, .submit, .complete 0, .await]).futures
      ∧ ∀ k ∈ (runSched 2 (fun i => decide (i = 0)) 2
            [.submit, .submit, .complete 0, .await]).futures,
          k ∈ (runSched 2 (fun i => decide (i = 0)) 2
            ([.submit, .submit, .complete 0, .await] ++ more)).doneOrder)
    ∧ (∀ i, (runSched 2 (fun i => decide (i = 0)) 2
          [.submit, .submit, .complete 0, .await]).aborted = some i →
        (fun i => decide (i = 0)) i = true
        ∧ (runSched 2 (fun i => decide (i = 0)) 2
            [.submit, .submit, .complete 0, .await]).doneOrder[
            (runSched 2 (fun i => decide (i = 0)) 2
              [.submit, .submit, .complete 0, .await]).awaitPtr]? = some i
        ∧ ∀ q, q < (runSched 2 (fun i => decide (i = 0)) 2
              [.submit, .submit, .complete 0, .await]).awaitPtr →
            ∃ j, (runSched 2 (fun i => decide (i = 0)) 2
                [.submit, .submit, .complete 0, .await]).doneOrder[q]? = some j
              ∧ (fun i => decide (i = 0)) j = false) :=
  C3_failure_handling 2 2 (fun i => decide (i = 0))
    [.submit, .submit, .complete 0, .await] (by decide)

/-- C4 counterexample: batch size 0 is a configurable value (`--batch 0`),
yet after submitting the first item there is one item in flight, exceeding
the configured batch size. -/
theorem C4_counterexample :
    ¬ inFlight (runSched 0 (fun _ => false) 1 [Act.submit]) ≤ 0 := by decide

/-- C4 (amended, for batch sizes ≥ 1): at every reachable point the
scheduler has at most `b` items in flight, the in-flight items form the
contiguous index block immediately after the fully drained earlier batches
(`prevDone` holds exactly the indices below its length), and while a batch
is open the drained prefix length is a multiple of `b` - so no item of a
later batch is ever submitted before every item of the previous batch has
reached a terminal state. -/
theorem C4_bound_and_sequencing (b n : Nat) (err : Nat → Bool) (acts : List Act) (hb : 1 ≤ b) :
    inFlight (runSched b err n acts) ≤ b
    ∧ (runSched b err n acts).futures
        = List.range' (runSched b err n acts).prevDone.length
            (runSched b err n acts).futures.length
    ∧ (∀ j, j ∈ (runSched b err n acts).prevDone
        ↔ j < (runSched b err n acts).prevDone.length)
    ∧ ((runSched b err n acts).futures ≠ []
        → b ∣ (runSched b err n acts).prevDone.length) := by
  have inv := schedInv_run b n err acts hb
  refine ⟨?_, inv.hfut, ?_, fun h => inv.hdiv (Or.inl h)⟩
  · have h1 : inFlight (runSched b err n acts) ≤ (runSched b err n acts).futures.length :=
      List.length_filter_le _ _
    have h2 : (runSched b err n acts).futures.length ≤ b := by
      cases hd : (runSched b err n acts).draining
      · have := inv.hndr hd
        omega
      · have := inv.hdr hd
        omega
    omega
  · intro j
    rw [inv.hperm.mem_iff, List.mem_range]

/-- Witness for C4 on a concrete two-batch run. -/
theorem C4_witness :
    inFlight (runSched 2 (fun _ => false) 3
        [.submit, .submit, .complete 0, .complete 1, .await, .await, .reset, .submit]) ≤ 2
    ∧ (runSched 2 (fun _ => false) 3
        [.submit, .submit, .complete 0, .complete 1, .await, .await, .reset, .submit]).futures
        = List.range' (runSched 2 (fun _ => false) 3
            [.submit, .submit, .complete 0, .complete 1, .await, .await, .reset, .submit]).prevDone.length
            (runSched 2 (fun _ => false) 3
              [.submit, .submit, .complete 0, .complete 1, .await, .await, .reset, .submit]).futures.length
    ∧ (∀ j, j ∈ (runSched 2 (fun _ => false) 3
          [.submit, .submit, .complete 0, .complete 1, .await, .await, .reset, .submit]).prevDone
        ↔ j < (runSched 2 (fun _ => false) 3
          [.submit, .submit, .complete 0, .complete 1, .await, .await, .reset, .submit]).prevDone.length)
    ∧ ((runSched 2 (fun _ => false) 3
          [.submit, .submit, .complete 0, .complete 1, .await, .await, .reset, .submit]).futures ≠ []
        → 2 ∣ (runSched 2 (fun _ => false) 3
          [.submit, .submit, .complete 0, .complete 1, .await, .await, .reset, .submit]).prevDone.length) :=
  C4_bound_and_sequencing 2 3 (fun _ => false)
    [.submit, .submit, .complete 0, .complete 1, .await, .await, .reset, .submit] (by decide)

/-- C5 counterexample: two workers move same-named files `a.txt` (contents
`c1`, `c2`) into an empty destination.  Under the interleaving where both
existence checks run before either `shutil.move` (schedule `[0, 1, 0, 1]`),
both resolve to `a.txt` and the second move overwrites the first: the
destination ends with one file instead of two, and content `c1` is lost. -/
theorem C5_counterexample :
    (rrun ⟨[], [⟨"a.txt", "c1", none, false⟩, ⟨"a.txt", "c2", none, false⟩]⟩
        [0, 1, 0, 1]).dest = [("a.txt", EntryKind.file "c2")]
    ∧ (rrun ⟨[], [⟨"a.txt", "c1", none, false⟩, ⟨"a.txt", "c2", none, false⟩]⟩
        [0, 1, 0, 1]).dest.length = 1 := by
  exact ⟨by decide, by decide⟩

/-- C5 (amended): when the N moves execute serially (each `move_file`'s
check and move complete before the next item starts, e.g. with one worker),
N same-named files moved into an empty destination yield exactly N entries:
the base name for the first and suffixes `(1)` … `(N-1)` for the rest, in
traversal order, each carrying the content of its own source file; no
source file remains. -/
theorem C5_serial_same_name (nm : String) (contents : List String) :
    runAll (contents.map fun c => (nm, c)) [] = ([], enumNames nm 0 contents)
    ∧ (enumNames nm 0 contents).length = contents.length
    ∧ entryNames (enumNames nm 0 contents)
        = (List.range' 0 contents.length).map (seqName nm) := by
  refine ⟨?_, enumNames_length nm contents 0, enumNames_names nm contents 0⟩
  exact runAll_same_name nm contents []

/-- C6 counterexample: two files with batch size 1; the first move raises.
The exception propagates out of `main`: the second file is never submitted
(`pending = [1]`), "Done moving files." is never printed, and no failure
tally exists anywhere in the program. -/
theorem C6_counterexample :
    (runSched 1 (fun i => decide (i = 0)) 2
        [.submit, .complete 0, .await, .submit, .finish]).aborted = some 0
    ∧ (runSched 1 (fun i => decide (i = 0)) 2
        [.submit, .complete 0, .await, .submit, .finish]).pending = [1]
    ∧ (runSched 1 (fun i => decide (i = 0)) 2
        [.submit, .complete 0, .await, .submit, .finish]).finished = false
    ∧ (runSched 1 (fun i => decide (i = 0)) 2
        [.submit, .complete 0, .await, .submit, .finish]).out = [] := by
  exact ⟨by decide, by decide, by decide, by decide⟩

/-- C6 (amended): when a move fails, the run aborts with that exception -
the aborting item really raised, the completion message is never printed and
the output stays empty (in particular there is no failure tally). -/
theorem C6_abort_no_done (b n : Nat) (err : Nat → Bool) (acts : List Act) (hb : 1 ≤ b) :
    ∀ i, (runSched b err n acts).aborted = some i →
      err i = true
      ∧ (runSched b err n acts).finished = false
      ∧ (runSched b err n acts).out = [] := by
  intro i hi
  have inv := schedInv_run b n err acts hb
  have herr := (inv.habort i hi).1
  have hfin : (runSched b err n acts).finished = false := by
    cases hf : (runSched b err n acts).finished
    · rfl
    · have hcontra := (inv.hfin hf).1
      rw [hcontra] at hi
      exact absurd hi (by simp)
  refine ⟨herr, hfin, ?_⟩
  rw [inv.hout, hfin]
  simp

/-- Witness for C6 on a concrete failing run. -/
theorem C6_witness :
    (fun i => decide (i = 0)) 0 = true
    ∧ (runSched 1 (fun i => decide (i = 0)) 1 [Act.submit, Act.complete 0, Act.await]).finished
        = false
    ∧ (runSched 1 (fun i => decide (i = 0)) 1 [Act.submit, Act.complete 0, Act.await]).out
        = [] :=
  C6_abort_no_done 1 1 (fun i => decide (i = 0)) [Act.submit, Act.complete 0, Act.await]
    (by decide) 0 (by decide)

/-- C7: with a missing source path, `main` prints a diagnostic naming the
source path and returns at once: the filesystem is returned unchanged -
no destination directory is created, nothing is gathered, no move runs. -/
theorem C7_source_missing (fs : FState) (srcPath destPath : String) (dryRun : Bool)
    (h : fs.srcExists = false) :
    mainRun fs srcPath destPath dryRun = (fs, ["Source path does not exist: " ++ srcPath]) := by
  rw [mainRun, if_pos h]

/-- Witness for C7 at a concrete filesystem. -/
theorem C7_witness :
    mainRun ⟨false, [("a", "b")], true, [("x", EntryKind.dir)]⟩ "srcdir" "destdir" false
      = (⟨false, [("a", "b")], true, [("x", EntryKind.dir)]⟩,
         ["Source path does not exist: " ++ "srcdir"]) :=
  C7_source_missing ⟨false, [("a", "b")], true, [("x", EntryKind.dir)]⟩ "srcdir" "destdir"
    false rfl

/-- C8: over any finite destination directory state the probe loop of
`move_file` terminates: some index `i` with `1 ≤ i ≤ |existing| + 1` has a
free candidate, and the loop (whose fuel bound is never reached) returns
that candidate after finitely many probes. -/
theorem C8_probe_terminates (existing : List String) (stem ext : String) :
    ∃ i, 1 ≤ i ∧ i ≤ existing.length + 1
      ∧ candidate stem ext i ∉ existing
      ∧ probeAux existing stem ext (existing.length + 1) 1 = candidate stem ext i := by
  obtain ⟨i, h1, h2, hfree, hmin, hres⟩ := probe_resolves existing stem ext
  exact ⟨i, h1, h2, hfree, hres⟩

/-- C9: a name that is only a leading-dot extension (single dot, at the
front) has itself as the stem and an empty suffix, so collision candidates
are `"{name} ({i})"`. -/
theorem C9_leading_dot (name : String) (h1 : name.data.head? = some '.')
    (h2 : ∀ c ∈ name.data.tail, c ≠ '.') :
    splitExt name = (name, "")
    ∧ ∀ i, candidate (splitExt name).1 (splitExt name).2 i
        = name ++ " (" ++ decimal i ++ ")" := by
  have hsplit : splitExt name = (name, "") := by
    match hd : name.data with
    | [] => rw [hd] at h1; exact absurd h1 (by simp)
    | a :: rest =>
      have ha : a = '.' := by
        rw [hd] at h1
        simpa using h1
      have hrest : rfind rest '.' = none := by
        refine rfind_eq_none ?_
        intro c hc
        refine h2 c ?_
        rw [hd]
        exact hc
      rw [splitExt, hd, ha, rfind, hrest]
      simp
  refine ⟨hsplit, ?_⟩
  intro i
  rw [hsplit]
  exact string_append_empty _

/-- Witness for C9 at `.gitignore`. -/
theorem C9_witness :
    splitExt ".gitignore" = (".gitignore", "")
    ∧ candidate (splitExt ".gitignore").1 (splitExt ".gitignore").2 1
      = ".gitignore" ++ " (" ++ decimal 1 ++ ")" :=
  ⟨(C9_leading_dot ".gitignore" (by decide) (by decide)).1,
   (C9_leading_dot ".gitignore" (by decide) (by decide)).2 1⟩

/-- C10: `dest.exists()` is true for a directory entry as well, so a
subdirectory of the destination whose name equals the source file's name is
treated as a collision: the file receives a suffixed name, the directory is
untouched, and the file is placed beside it, not inside it. -/
theorem C10_dir_collision (d : DirEntries) (nm content : String)
    (h : (nm, EntryKind.dir) ∈ d) :
    (move_file d nm content).1 ≠ nm
    ∧ (∃ i, 1 ≤ i
        ∧ (move_file d nm content).1 = candidate (splitExt nm).1 (splitExt nm).2 i)
    ∧ (nm, EntryKind.dir) ∈ (move_file d nm content).2
    ∧ ((move_file d nm content).1, EntryKind.file content) ∈ (move_file d nm content).2 := by
  have hmem : nm ∈ entryNames d := List.mem_map.mpr ⟨(nm, EntryKind.dir), h, rfl⟩
  obtain ⟨i, h1, h2, hfree, hmin, hres⟩ :=
    probe_resolves (entryNames d) (splitExt nm).1 (splitExt nm).2
  have hdest : resolveDest (entryNames d) nm
      = candidate (splitExt nm).1 (splitExt nm).2 i := by
    rw [resolveDest, if_pos hmem, hres]
  have hwrite : (move_file d nm content).2
      = d ++ [(candidate (splitExt nm).1 (splitExt nm).2 i, EntryKind.file content)] := by
    simp only [move_file]
    rw [hdest, writeEntry, if_neg hfree]
  refine ⟨?_, ⟨i, h1, ?_⟩, ?_, ?_⟩
  · show resolveDest (entryNames d) nm ≠ nm
    rw [hdest]
    exact candidate_ne_of_split nm i
  · show resolveDest (entryNames d) nm = _
    exact hdest
  · rw [hwrite]
    exact List.mem_append_left _ h
  · rw [hwrite]
    have h1eq : (move_file d nm content).1
        = candidate (splitExt nm).1 (splitExt nm).2 i := by
      show resolveDest (entryNames d) nm = _
      exact hdest
    rw [h1eq]
    exact List.mem_append_right _ (List.mem_singleton.mpr rfl)

/-- Witness for C10: destination already holds a subdirectory `a.txt`. -/
theorem C10_witness :
    (move_file [("a.txt", EntryKind.dir)] "a.txt" "c").1 ≠ "a.txt"
    ∧ (∃ i, 1 ≤ i
        ∧ (move_file [("a.txt", EntryKind.dir)] "a.txt" "c").1
          = candidate (splitExt "a.txt").1 (splitExt "a.txt").2 i)
    ∧ ("a.txt", EntryKind.dir) ∈ (move_file [("a.txt", EntryKind.dir)] "a.txt" "c").2
    ∧ ((move_file [("a.txt", EntryKind.dir)] "a.txt" "c").1, EntryKind.file "c")
        ∈ (move_file [("a.txt", EntryKind.dir)] "a.txt" "c").2 :=
  C10_dir_collision [("a.txt", EntryKind.dir)] "a.txt" "c" (by decide)

end FileCombiner
